import Mathlib

/-!
Shallow embedding of `src/streaming-data-pipeline.py` and proofs about it.

The pipeline (113 lines of Python) consists of:
* module constants `MAX_WINDOW_SIZE`, `BATCH_SIZE`, `MAX_DELAY` (lines 10-13);
* process-wide accumulators: a HyperLogLog `hll`, a CountMinSketch `cms`,
  two `deque(maxlen=1000)` windows, and Welford state `n, mean, M2`
  (lines 17-25);
* `process_batch` (lines 41-74), folding one batch of events into the
  accumulators and printing a summary;
* `subscriber` (lines 78-95), the batch scheduler loop draining an
  `asyncio.Queue` with timeout `MAX_DELAY` and flushing on size or time;
* `publisher`/`main` wiring a bounded `asyncio.Queue(maxsize=10)`.

Python floats are modelled as exact rationals (`ℚ`); `time.time()` is an
explicit clock parameter (one value per call); the third-party sketches
(`probables.CountMinSketch`, `datasketch.HyperLogLog`) and the standard
library `asyncio.Queue` are not part of the repository's sources and are
modelled from the specification where a claim depends on them.
-/

namespace Pipeline

/-- Source line 10: `MAX_WINDOW_SIZE = 1000`. -/
def MAX_WINDOW_SIZE : ℕ := 1000

/-- Source line 12: `BATCH_SIZE = 100`. -/
def BATCH_SIZE : ℕ := 100

/-- Source line 13: `MAX_DELAY = 0.5` (seconds, modelled as an exact rational). -/
def MAX_DELAY : ℚ := 1/2

/-- Source lines 31-35: an event is a dict with `user_id`, `value`, `timestamp`. -/
structure Event where
  user_id : ℕ
  value : ℚ
  timestamp : ℚ
deriving DecidableEq

/-- A `collections.deque(maxlen = maxlen)`: bounded FIFO window, oldest first. -/
structure BWindow (α : Type) where
  maxlen : ℕ
  items : List α
deriving DecidableEq

/-- Python `deque.append`: append on the right, discarding from the left once
the length would exceed `maxlen` (Python deque semantics). -/
def BWindow.push {α : Type} (wnd : BWindow α) (x : α) : BWindow α :=
  ⟨wnd.maxlen, (wnd.items ++ [x]).drop (wnd.items.length + 1 - wnd.maxlen)⟩

/-- Push a whole list, left to right. -/
def BWindow.pushAll {α : Type} (wnd : BWindow α) (xs : List α) : BWindow α :=
  xs.foldl BWindow.push wnd

/-- Welford accumulator: source globals `n, mean, M2` (lines 23-25). -/
structure Moments where
  n : ℕ
  mean : ℚ
  M2 : ℚ
deriving DecidableEq

/-- Source lines 23-25: `n = 0; mean = 0.0; M2 = 0.0`. -/
def Moments.init : Moments := ⟨0, 0, 0⟩

/-- Source lines 54-57:
`n += 1; delta = value - mean; mean += delta / n; M2 += delta * (value - mean)`. -/
def Moments.update (s : Moments) (value : ℚ) : Moments :=
  let n1 : ℕ := s.n + 1
  let delta : ℚ := value - s.mean
  let mean1 : ℚ := s.mean + delta / (n1 : ℚ)
  ⟨n1, mean1, s.M2 + delta * (value - mean1)⟩

/-- Source line 66: `variance = M2 / (n - 1) if n > 1 else 0`. -/
def Moments.variance (s : Moments) : ℚ :=
  if 1 < s.n then s.M2 / ((s.n : ℚ) - 1) else 0

/-- The sequence of divisors used by the `delta / n` division of line 56 when
folding the given values into the accumulator, in execution order. -/
def meanUpdateDivisors : Moments → List ℚ → List ℚ
  | _, [] => []
  | s, v :: vs => ((s.n + 1 : ℕ) : ℚ) :: meanUpdateDivisors (s.update v) vs

/-- Python's builtin `round` on a real argument: nearest integer, ties to even
(used at line 64, `round(v)`). -/
def pyRound (q : ℚ) : ℤ :=
  let f : ℤ := ⌊q⌋
  let r : ℚ := q - (f : ℚ)
  if r < 1/2 then f
  else if 1/2 < r then f + 1
  else if Even f then f else f + 1

/-- First position of `a` in `l` (0 if absent); used to express
"first seen in the window" order. -/
def firstIdx {α : Type} [DecidableEq α] : List α → α → ℕ
  | [], _ => 0
  | b :: l, a => if a = b then 0 else firstIdx l a + 1

/-- The distinct elements of `l` in order of first occurrence: the key
insertion order of `collections.Counter(l)` (Python dicts preserve insertion
order, and `Counter` counts left to right). -/
def firstSeen {α : Type} [DecidableEq α] : List α → List α
  | [] => []
  | a :: l => a :: firstSeen (l.filter (fun x => decide (x ≠ a)))
termination_by l => l.length
decreasing_by
  simp only [List.length_cons]
  exact Nat.lt_succ_of_le (List.length_filter_le _ _)

/-- Insert `b` into a list sorted by `cnt` descending, after all elements of
count ≥ `cnt b` (the insertion point of a stable descending sort). -/
def insertByCount {α : Type} (cnt : α → ℕ) (b : α) : List α → List α
  | [] => [b]
  | a :: l => if cnt a < cnt b then b :: a :: l else a :: insertByCount cnt b l

/-- Stable sort by `cnt`, descending: the documented order of
`Counter.most_common` ("elements with equal counts are ordered in the order
first encountered"), realised as a left-to-right stable insertion. -/
def sortByCountDesc {α : Type} (cnt : α → ℕ) (l : List α) : List α :=
  l.foldl (fun acc a => insertByCount cnt a acc) []

/-- Python `collections.Counter(l).most_common(3)`: the three most frequent elements
of `l` with their counts, equal counts ordered by first encounter. -/
def mostCommon3 {α : Type} [DecidableEq α] (l : List α) : List (α × ℕ) :=
  ((sortByCountDesc (fun b => l.count b) (firstSeen l)).take 3).map
    (fun b => (b, l.count b))

/-- Source line 64: `Counter([round(v) for v in value_window]).most_common(3)`. -/
def topBuckets (win : List ℚ) : List (ℤ × ℕ) :=
  mostCommon3 (win.map pyRound)

/-- The ranking order the summary's top-3 listing follows: `a` ranks before
`b` when `a` is strictly more frequent in the bucket list `l`, or equally
frequent and first seen earlier. -/
def bucketBefore {α : Type} [DecidableEq α] (l : List α) (a b : α) : Prop :=
  l.count b < l.count a ∨ (l.count a = l.count b ∧ firstIdx l a < firstIdx l b)

/-- Modelled from the spec: the `probables.CountMinSketch(width=1000, depth=5)`
of source line 18 is library code not present under `src/`. Spec 4.5: a
fixed-size `depth × width` counter array. -/
structure CMS (w d : ℕ) where
  cells : Fin d → Fin w → ℕ

/-- Modelled from the spec: all counters start at zero. -/
def CMS.empty {w d : ℕ} : CMS w d := ⟨fun _ _ => 0⟩

/-- Modelled from the spec: `add(key)` increments the `depth` counter cells
selected by `depth` independent hash functions over `width` buckets each
(spec 4.5). The hash family `hf` is an arbitrary parameter. -/
def CMS.add {α : Type} {w d : ℕ} [DecidableEq α] (hf : Fin d → α → Fin w)
    (s : CMS w d) (k : α) : CMS w d :=
  ⟨fun i j => if j = hf i k then s.cells i j + 1 else s.cells i j⟩

/-- Fold a list of keys into the sketch, left to right. -/
def CMS.addList {α : Type} {w d : ℕ} [DecidableEq α] (hf : Fin d → α → Fin w)
    (s : CMS w d) (ks : List α) : CMS w d :=
  ks.foldl (CMS.add hf) s

/-- Modelled from the spec: `estimate(key)` (the library's `check`) returns
the minimum of the `depth` corresponding counters (spec 4.5). Depth is
`d + 1` so the minimum is over a nonempty set. -/
def CMS.estimate {α : Type} {w d : ℕ} [DecidableEq α]
    (hf : Fin (d + 1) → α → Fin w) (s : CMS w (d + 1)) (k : α) : ℕ :=
  Finset.univ.inf' ⟨(0 : Fin (d + 1)), Finset.mem_univ _⟩
    (fun i => s.cells i (hf i k))

/-- The `datasketch.HyperLogLog(p=10)` of source line 17, kept abstract: a
state type `H` with a deterministic update (line 49, keyed by the user id,
whose decimal string the source feeds to `update`) and a cardinality
readout (`len(hll)`, line 61). -/
structure HLLModel (H : Type) where
  update : H → ℕ → H
  card : H → ℚ

/-- The process-wide accumulators of source lines 17-25: `hll`, `cms`,
`value_window`, `latency_window` and the Welford globals `n, mean, M2`
(grouped into `Moments`). -/
structure AggState (H : Type) (w d : ℕ) where
  hll : H
  cms : CMS w (d + 1)
  value_window : BWindow ℚ
  latency_window : BWindow ℚ
  moments : Moments

/-- The accumulators exactly as constructed at module load (lines 17-25):
fresh sketches, two empty `deque(maxlen=MAX_WINDOW_SIZE)`, zeroed moments. -/
def freshAggState {H : Type} {w d : ℕ} (h0 : H) : AggState H w d :=
  ⟨h0, CMS.empty, ⟨MAX_WINDOW_SIZE, []⟩, ⟨MAX_WINDOW_SIZE, []⟩, Moments.init⟩

/-- Source lines 44-57, body of the per-event loop of `process_batch`:
compute `latency = now - event.timestamp` (line 47, `now` is the value
`time.time()` returns for this event — note: no clamping), update both
sketches (lines 49-50), push into both windows (lines 51-52), fold the value
into the Welford state (lines 54-57). -/
def processEvent {H : Type} {w d : ℕ} (hm : HLLModel H)
    (hf : Fin (d + 1) → ℕ → Fin w) (now : ℚ) (s : AggState H w d)
    (e : Event) : AggState H w d :=
  let latency : ℚ := now - e.timestamp
  { hll := hm.update s.hll e.user_id
    cms := s.cms.add hf e.user_id
    value_window := s.value_window.push e.value
    latency_window := s.latency_window.push latency
    moments := s.moments.update e.value }

/-- The event loop of `process_batch` (lines 44-57): the clock is a function
from call number to time, one `time.time()` call per event; `i` is the index
of the next call. -/
def runEvents {H : Type} {w d : ℕ} (hm : HLLModel H)
    (hf : Fin (d + 1) → ℕ → Fin w) (clock : ℕ → ℚ) :
    ℕ → AggState H w d → List Event → AggState H w d
  | _, s, [] => s
  | i, s, e :: es => runEvents hm hf clock (i + 1) (processEvent hm hf (clock i) s e) es

/-- The raw latencies `clock i - e.timestamp` of a batch, in order, exactly
as line 47 computes them (negative values included; nothing clamps them). -/
def rawLatencies (clock : ℕ → ℚ) : ℕ → List Event → List ℚ
  | _, [] => []
  | i, e :: es => (clock i - e.timestamp) :: rawLatencies clock (i + 1) es

/-- Linear-interpolation percentile, `np.percentile(a, q)` with the default
method (lines 69-74): sort ascending, index `h = (len-1) * q/100`,
interpolate between the neighbouring order statistics. -/
def percentile (xs : List ℚ) (q : ℚ) : ℚ :=
  let s := xs.mergeSort (fun a b => decide (a ≤ b))
  let h : ℚ := ((s.length - 1 : ℕ) : ℚ) * q / 100
  let lo := ⌊h⌋
  let hi := ⌈h⌉
  let vlo := s.getD lo.toNat 0
  let vhi := s.getD hi.toNat 0
  vlo + (h - lo) * (vhi - vlo)

/-- The summary `process_batch` reports (lines 59-74): total event count,
`len(hll)`, the frequency check of probe key 123, the top-3 value buckets, Welford mean and
variance, and the three latency percentiles. -/
structure BatchSummary where
  events_total : ℕ
  distinct_estimate : ℚ
  freq_user123 : ℕ
  top_buckets : List (ℤ × ℕ)
  mean : ℚ
  variance : ℚ
  p50 : ℚ
  p95 : ℚ
  p99 : ℚ

/-- Source lines 41-74, `process_batch`: fold the batch into the accumulators
(lines 44-57), then read off the summary (lines 59-74). Returns the updated
accumulator state together with the summary. -/
def process_batch {H : Type} {w d : ℕ} (hm : HLLModel H)
    (hf : Fin (d + 1) → ℕ → Fin w) (clock : ℕ → ℚ) (s : AggState H w d)
    (events : List Event) : AggState H w d × BatchSummary :=
  let s1 := runEvents hm hf clock 0 s events
  (s1,
   { events_total := s1.moments.n
     distinct_estimate := hm.card s1.hll
     freq_user123 := s1.cms.estimate hf 123
     top_buckets := topBuckets s1.value_window.items
     mean := s1.moments.mean
     variance := s1.moments.variance
     p50 := percentile s1.latency_window.items 50
     p95 := percentile s1.latency_window.items 95
     p99 := percentile s1.latency_window.items 99 })

/-- One iteration's worth of input to the `subscriber` loop (lines 82-95):
`res = some e` when `queue.get()` returned event `e` within the timeout,
`res = none` when `asyncio.wait_for` raised `TimeoutError`; `t` is the time
at which the iteration handles the result (the `time.time()` of lines 87,
90 and 95). -/
structure SchedIn (α : Type) where
  res : Option α
  t : ℚ

/-- The scheduler's state between iterations: the `buffer` list and the
`start` reference time (lines 79-80). -/
structure SchedState (α : Type) where
  buffer : List α
  start : ℚ

/-- One iteration of the `subscriber` loop (lines 82-95). On an event:
append, then flush iff `len(buffer) >= BATCH_SIZE` or `now - start >=
MAX_DELAY` (line 87). On a timeout: flush iff the buffer is non-empty
(line 92). A flush returns the batch and resets `buffer` and `start`. -/
def schedStep {α : Type} (s : SchedState α) (inp : SchedIn α) :
    SchedState α × Option (List α) :=
  match inp.res with
  | some e =>
    let buf := s.buffer ++ [e]
    if BATCH_SIZE ≤ buf.length ∨ MAX_DELAY ≤ inp.t - s.start then
      (⟨[], inp.t⟩, some buf)
    else
      (⟨buf, s.start⟩, none)
  | none =>
    if s.buffer.isEmpty then (s, none) else (⟨[], inp.t⟩, some s.buffer)

/-- Run the `subscriber` loop over a list of iteration inputs, collecting
each flushed batch together with the time at which it was flushed. -/
def schedRun {α : Type} (s : SchedState α) :
    List (SchedIn α) → SchedState α × List (ℚ × List α)
  | [] => (s, [])
  | inp :: rest =>
    match schedStep s inp with
    | (s1, some b) =>
      let r := schedRun s1 rest
      (r.1, (inp.t, b) :: r.2)
    | (s1, none) => schedRun s1 rest

/-- Realizability of a trace of iteration inputs, given the time at which the
previous iteration ended: times never decrease, an event is delivered within
`MAX_DELAY` of the take's begin, and a timeout occurs exactly `MAX_DELAY`
after the take began (the semantics of `asyncio.wait_for(..., MAX_DELAY)`). -/
def schedWF {α : Type} : ℚ → List (SchedIn α) → Prop
  | _, [] => True
  | tp, inp :: rest =>
    (match inp.res with
     | some _ => tp ≤ inp.t ∧ inp.t ≤ tp + MAX_DELAY
     | none => inp.t = tp + MAX_DELAY) ∧ schedWF inp.t rest

/-- Modelled from the spec: the `asyncio.Queue(maxsize=10)` of line 107 is
standard-library code not present under `src/`. Spec 4.1: a bounded FIFO
channel; `put` blocks while the queue is at capacity, `take` blocks while it
is empty. The item list is ordered front (next to take) first. -/
structure Queue (α : Type) where
  capacity : ℕ
  items : List α

/-- Modelled from the spec: `put` appends when a slot is free and otherwise
blocks (no transition), never failing and never discarding the event. -/
def tryPut {α : Type} (q : Queue α) (a : α) : Option (Queue α) :=
  if q.items.length < q.capacity then some ⟨q.capacity, q.items ++ [a]⟩ else none

/-- Modelled from the spec: `take` removes the front item when one exists and
otherwise blocks (no transition). -/
def tryTake {α : Type} (q : Queue α) : Option (Queue α × α) :=
  match q.items with
  | [] => none
  | a :: rest => some (⟨q.capacity, rest⟩, a)

/-- A completed queue operation of an execution history. -/
inductive QOp (α : Type) where
  | put (a : α)
  | take
deriving DecidableEq

/-- Run a history of queue operations; `none` when some operation could not
complete (it would have blocked). Returns the final queue and the list of
taken events in chronological order. -/
def runOps {α : Type} (q : Queue α) : List (QOp α) → Option (Queue α × List α)
  | [] => some (q, [])
  | QOp.put a :: rest =>
    match tryPut q a with
    | none => none
    | some q1 => runOps q1 rest
  | QOp.take :: rest =>
    match tryTake q with
    | none => none
    | some (q1, a) =>
      match runOps q1 rest with
      | none => none
      | some (qf, outs) => some (qf, a :: outs)

/-- The events a history attempts to put, in order. -/
def putsOf {α : Type} (ops : List (QOp α)) : List α :=
  ops.filterMap (fun op => match op with | QOp.put a => some a | QOp.take => none)

/-- A trivial cardinality-estimator instance, used to run the pipeline on
concrete inputs. -/
def hllTriv : HLLModel Unit := ⟨fun _ _ => (), fun _ => 0⟩

/-- A trivial one-row, one-bucket hash family, used to run the pipeline on
concrete inputs. -/
def hfTriv : Fin 1 → ℕ → Fin 1 := fun _ _ => 0

/-- A concrete window content used to exercise the top-3 bucket ranking. -/
def wTop3 : List ℚ :=
  [((1 : ℤ) : ℚ), ((2 : ℤ) : ℚ), ((2 : ℤ) : ℚ), ((3 : ℤ) : ℚ), ((3 : ℤ) : ℚ), ((4 : ℤ) : ℚ)]

/-- C4. Feeding the values 10, 20, 30 into a fresh Welford accumulator via
the incremental update of lines 54-57 yields mean 20, and the variance of
line 66 (`M2 / (n - 1)` for `n > 1`, else 0) yields 100. -/
theorem rollingMoments_10_20_30 :
    (((Moments.init.update 10).update 20).update 30).mean = 20 ∧
    (((Moments.init.update 10).update 20).update 30).variance = 100 := by
  norm_num [Moments.init, Moments.update, Moments.variance]

/-- C5. A bounded window of capacity 3 holds [2, 3, 4] after pushing
1, 2, 3, 4 in order; in general a push appends the new item on the right,
evicting the oldest (leftmost) item exactly when the window is already at
capacity, the retained list reading oldest to newest. -/
theorem boundedWindow_push_spec :
    (((((⟨3, []⟩ : BWindow ℕ).push 1).push 2).push 3).push 4).items = [2, 3, 4] ∧
    (∀ (α : Type) (wnd : BWindow α) (x : α),
      wnd.items.length < wnd.maxlen → (wnd.push x).items = wnd.items ++ [x]) ∧
    (∀ (α : Type) (wnd : BWindow α) (x : α),
      wnd.items.length = wnd.maxlen → 0 < wnd.maxlen →
        (wnd.push x).items = wnd.items.tail ++ [x]) := by
  refine ⟨rfl, ?_, ?_⟩
  · intro α wnd x h
    simp only [BWindow.push]
    rw [Nat.sub_eq_zero_of_le (by omega), List.drop_zero]
  · intro α wnd x h hpos
    simp only [BWindow.push]
    have h1 : wnd.items.length + 1 - wnd.maxlen = 1 := by omega
    rw [h1, List.drop_append_of_le_length (by omega), List.drop_one]

/-- Closed instances of the two conditional parts of `boundedWindow_push_spec`. -/
theorem boundedWindow_push_spec_witness :
    ((⟨3, [9]⟩ : BWindow ℕ).push 5).items = [9] ++ [5] ∧
    ((⟨2, [7, 8]⟩ : BWindow ℕ).push 5).items = [7, 8].tail ++ [5] := by
  refine ⟨boundedWindow_push_spec.2.1 ℕ ⟨3, [9]⟩ 5 (by decide), ?_⟩
  exact boundedWindow_push_spec.2.2 ℕ ⟨2, [7, 8]⟩ 5 (by decide) (by decide)

/-- The `moments` component of the event loop is the left fold of the Welford
update over the batch's values. -/
theorem runEvents_moments {H : Type} {w d : ℕ} (hm : HLLModel H)
    (hf : Fin (d + 1) → ℕ → Fin w) (clock : ℕ → ℚ) :
    ∀ (events : List Event) (i : ℕ) (st : AggState H w d),
      (runEvents hm hf clock i st events).moments
        = (events.map Event.value).foldl Moments.update st.moments := by
  intro events
  induction events with
  | nil => intro i st; rfl
  | cons e es ih =>
    intro i st
    simp only [runEvents, List.map_cons, List.foldl_cons]
    exact ih (i + 1) (processEvent hm hf (clock i) st e)

/-- Every divisor in the Welford update trace is a positive natural. -/
theorem meanUpdateDivisors_ne_zero :
    ∀ (vs : List ℚ) (s : Moments) (q : ℚ), q ∈ meanUpdateDivisors s vs → q ≠ 0 := by
  intro vs
  induction vs with
  | nil => intro s q h; simp [meanUpdateDivisors] at h
  | cons v vs ih =>
    intro s q h
    simp only [meanUpdateDivisors, List.mem_cons] at h
    rcases h with h | h
    · subst h
      exact Nat.cast_ne_zero.mpr (Nat.succ_ne_zero s.n)
    · exact ih (s.update v) q h

/-- C10. `process_batch` never divides by zero: the divisor of the
`delta / n` update of line 56 is always the just-incremented counter, hence
nonzero, for every event of every batch from every accumulator state; and
the variance division of line 66 happens only under the guard `n > 1`, where
its divisor `n - 1` is nonzero (otherwise the variance is the literal 0). -/
theorem process_batch_no_div_by_zero :
    (∀ (s : Moments) (vs : List ℚ) (q : ℚ), q ∈ meanUpdateDivisors s vs → q ≠ 0) ∧
    (∀ s : Moments, 1 < s.n → ((s.n : ℚ) - 1) ≠ 0) ∧
    (∀ s : Moments, ¬ 1 < s.n → s.variance = 0) ∧
    (∀ (H : Type) (w d : ℕ) (hm : HLLModel H) (hf : Fin (d + 1) → ℕ → Fin w)
       (clock : ℕ → ℚ) (i : ℕ) (st : AggState H w d) (events : List Event),
      (runEvents hm hf clock i st events).moments
        = (events.map Event.value).foldl Moments.update st.moments) := by
  refine ⟨fun s vs q h => meanUpdateDivisors_ne_zero vs s q h, ?_, ?_, ?_⟩
  · intro s h
    have h1 : (1 : ℚ) < (s.n : ℚ) := by exact_mod_cast h
    exact sub_ne_zero.mpr (ne_of_gt h1)
  · intro s h
    simp [Moments.variance, h]
  · intro H w d hm hf clock i st events
    exact runEvents_moments hm hf clock events i st

/-- Closed instance of `process_batch_no_div_by_zero`: the single divisor of
a one-value batch from a fresh accumulator is 1 ≠ 0, the guarded variance
divisor at n = 2 is nonzero, and the unguarded variance is 0. -/
theorem process_batch_no_div_by_zero_witness :
    ((1 : ℚ) ≠ 0) ∧ (((2 : ℕ) : ℚ) - 1 ≠ 0) ∧ Moments.init.variance = 0 := by
  refine ⟨?_, ?_, ?_⟩
  · exact process_batch_no_div_by_zero.1 Moments.init [10] 1
      (by simp [meanUpdateDivisors, Moments.init])
  · exact process_batch_no_div_by_zero.2.1 ⟨2, 15, 50⟩ (by norm_num)
  · exact process_batch_no_div_by_zero.2.2.1 Moments.init (by decide)

/-- C7. Aggregation is deterministic in accumulator state, batch content and
clock: two runs of `process_batch` from freshly constructed accumulators,
with pointwise-equal clocks and equal batches, produce the same summary and
the same final accumulator state. -/
theorem process_batch_deterministic :
    ∀ (H : Type) (hm : HLLModel H) (h0 : H) (w d : ℕ)
      (hf : Fin (d + 1) → ℕ → Fin w) (clock1 clock2 : ℕ → ℚ)
      (events1 events2 : List Event),
      (∀ i, clock1 i = clock2 i) → events1 = events2 →
      process_batch hm hf clock1 (freshAggState h0) events1
        = process_batch hm hf clock2 (freshAggState h0) events2 := by
  intro H hm h0 w d hf clock1 clock2 events1 events2 hclock hev
  have hc : clock1 = clock2 := funext hclock
  rw [hc, hev]

/-- Closed instance of `process_batch_deterministic` on a concrete batch. -/
theorem process_batch_deterministic_witness :
    process_batch hllTriv hfTriv (fun _ => 0) (freshAggState ()) [⟨1, 2, 3⟩]
      = process_batch hllTriv hfTriv (fun _ => 0) (freshAggState ()) [⟨1, 2, 3⟩] :=
  process_batch_deterministic Unit hllTriv () 1 0 hfTriv (fun _ => 0)
    (fun _ => 0) [⟨1, 2, 3⟩] [⟨1, 2, 3⟩] (fun _ => rfl) rfl

/-- Counter cells after folding a key list: each cell has gained exactly the
number of folded keys hashing to it. -/
theorem cms_addList_cells {w d : ℕ} (hf : Fin d → ℕ → Fin w) :
    ∀ (ks : List ℕ) (s : CMS w d) (i : Fin d) (j : Fin w),
      (CMS.addList hf s ks).cells i j
        = s.cells i j + ks.countP (fun k => decide (hf i k = j)) := by
  intro ks
  induction ks with
  | nil => intro s i j; simp [CMS.addList, List.countP_nil]
  | cons k ks ih =>
    intro s i j
    simp only [CMS.addList, List.foldl_cons] at *
    rw [ih (CMS.add hf s k) i j]
    simp only [CMS.add, List.countP_cons]
    by_cases h : j = hf i k
    · simp [h]
      omega
    · have h2 : ¬ (hf i k = j) := fun hh => h hh.symm
      simp [h, h2]

/-- C3. One-sided error of the frequency sketch: for every hash family,
every sequence of `add(key)` calls into a fresh sketch, and every key, the
estimate (minimum over the rows of the key's counter) is at least the true
number of occurrences of that key in the sequence. -/
theorem cms_estimate_ge_count (w d : ℕ) (hf : Fin (d + 1) → ℕ → Fin w)
    (ks : List ℕ) (k : ℕ) :
    ks.count k ≤ (CMS.addList hf CMS.empty ks).estimate hf k := by
  apply Finset.le_inf'
  intro i _
  rw [cms_addList_cells hf ks CMS.empty i (hf i k)]
  simp only [CMS.empty, Nat.zero_add]
  rw [List.count_eq_countP]
  apply List.countP_mono_left
  intro x _ hx
  have hxk : x = k := by simpa using hx
  subst hxk
  simp

/-- Prefix law of the ingest queue, from an arbitrary starting queue: the
taken events followed by the events still queued are exactly the starting
content followed by the accepted puts, in order. -/
theorem runOps_fifo {α : Type} :
    ∀ (ops : List (QOp α)) (q qf : Queue α) (outs : List α),
      runOps q ops = some (qf, outs) → outs ++ qf.items = q.items ++ putsOf ops := by
  intro ops
  induction ops with
  | nil =>
    intro q qf outs h
    simp only [runOps, Option.some_inj] at h
    obtain ⟨rfl, rfl⟩ := Prod.mk.injEq .. ▸ Prod.ext_iff.mp h.symm
    simp [putsOf]
  | cons op rest ih =>
    intro q qf outs h
    cases op with
    | put a =>
      simp only [runOps] at h
      cases hput : tryPut q a with
      | none => rw [hput] at h; exact absurd h (by simp)
      | some q1 =>
        rw [hput] at h
        have := ih q1 qf outs h
        simp only [tryPut] at hput
        by_cases hlt : q.items.length < q.capacity
        · rw [if_pos hlt] at hput
          obtain rfl := Option.some_inj.mp hput
          simp only [putsOf, List.filterMap_cons] at *
          rw [this]
          simp [putsOf]
        · rw [if_neg hlt] at hput; exact absurd hput (by simp)
    | take =>
      simp only [runOps] at h
      cases hq : q.items with
      | nil => rw [tryTake, hq] at h; exact absurd h (by simp)
      | cons a rest_items =>
        rw [tryTake, hq] at h
        simp only at h
        cases hrun : runOps (⟨q.capacity, rest_items⟩ : Queue α) rest with
        | none => rw [hrun] at h; exact absurd h (by simp)
        | some pr =>
          rw [hrun] at h
          obtain ⟨qf1, outs1⟩ := pr
          simp only [Option.some_inj] at h
          rw [Prod.mk.injEq] at h
          obtain ⟨rfl, rfl⟩ := h
          have hfz := ih ⟨q.capacity, rest_items⟩ qf1 outs1 hrun
          simp only [putsOf, List.filterMap_cons, List.cons_append] at *
          rw [hfz]

/-- C8. The bounded ingest queue never fails and never discards: `put` has a
transition exactly when a slot is free (otherwise the producer is blocked
and keeps its event), a successful `put` appends, a successful `take`
removes the front, and over any completed history started from an empty
queue the taken events followed by the still-queued events equal the put
events in order — FIFO with no loss. -/
theorem ingest_queue_fifo_no_loss :
    (∀ (α : Type) (cap : ℕ) (ops : List (QOp α)) (qf : Queue α) (outs : List α),
      runOps ⟨cap, []⟩ ops = some (qf, outs) → outs ++ qf.items = putsOf ops) ∧
    (∀ (α : Type) (q : Queue α) (a : α),
      tryPut q a = none ↔ q.capacity ≤ q.items.length) ∧
    (∀ (α : Type) (q : Queue α) (a : α) (q1 : Queue α),
      tryPut q a = some q1 → q1.items = q.items ++ [a] ∧ q1.capacity = q.capacity) ∧
    (∀ (α : Type) (q q1 : Queue α) (a : α),
      tryTake q = some (q1, a) → q.items = a :: q1.items ∧ q1.capacity = q.capacity) := by
  refine ⟨?_, ?_, ?_, ?_⟩
  · intro α cap ops qf outs h
    have := runOps_fifo ops ⟨cap, []⟩ qf outs h
    simpa using this
  · intro α q a
    simp only [tryPut]
    constructor
    · intro h
      by_contra hc
      rw [if_pos (by omega)] at h
      exact absurd h (by simp)
    · intro h
      rw [if_neg (by omega)]
  · intro α q a q1 h
    simp only [tryPut] at h
    by_cases hlt : q.items.length < q.capacity
    · rw [if_pos hlt] at h
      obtain rfl := Option.some_inj.mp h
      exact ⟨rfl, rfl⟩
    · rw [if_neg hlt] at h; exact absurd h (by simp)
  · intro α q q1 a h
    obtain ⟨cap, items⟩ := q
    cases items with
    | nil => exact absurd h (by simp [tryTake])
    | cons b rest =>
      simp only [tryTake] at h
      rw [Option.some_inj, Prod.mk.injEq] at h
      obtain ⟨h1, rfl⟩ := h
      rw [← h1]
      exact ⟨rfl, rfl⟩

/-- Closed instance of `ingest_queue_fifo_no_loss`: with capacity 1, the
history put 5, take, put 7, take completes with both events taken in order,
and a `put` into the full queue [5] has no transition. -/
theorem ingest_queue_fifo_no_loss_witness :
    ([5, 7] : List ℕ) ++ (⟨1, []⟩ : Queue ℕ).items
      = putsOf [QOp.put 5, QOp.take, QOp.put 7, QOp.take] ∧
    tryPut (⟨1, [5]⟩ : Queue ℕ) 7 = none := by
  constructor
  · exact ingest_queue_fifo_no_loss.1 ℕ 1
      [QOp.put 5, QOp.take, QOp.put 7, QOp.take] ⟨1, []⟩ [5, 7] rfl
  · exact (ingest_queue_fifo_no_loss.2.1 ℕ ⟨1, [5]⟩ 7).mpr (by decide)

/-- C2 amended. Line 47 uses the computed latency `now() - emitted_at`
as-is: the latency window after a batch is exactly the old window with the
raw (possibly negative) differences pushed in order — no clamping to 0, no
fault counter — and aggregation is total, so a negative latency never aborts
it. -/
theorem latency_used_raw :
    ∀ (H : Type) (w d : ℕ) (hm : HLLModel H) (hf : Fin (d + 1) → ℕ → Fin w)
      (clock : ℕ → ℚ) (events : List Event) (i : ℕ) (s : AggState H w d),
      (runEvents hm hf clock i s events).latency_window
        = s.latency_window.pushAll (rawLatencies clock i events) := by
  intro H w d hm hf clock events
  induction events with
  | nil => intro i s; rfl
  | cons e es ih =>
    intro i s
    simp only [runEvents, rawLatencies, BWindow.pushAll, List.foldl_cons]
    have := ih (i + 1) (processEvent hm hf (clock i) s e)
    simpa [BWindow.pushAll, processEvent] using this

/-- C2 counterexample. The claim that a negative latency is clamped to 0 is
false on the code: processing the single event `{user_id 123, value 5,
emitted_at 1}` under a clock reading 0 puts the raw latency -1 (not 0) into
the latency window. -/
theorem latency_clamp_counterexample :
    (process_batch hllTriv hfTriv (fun _ => 0) (freshAggState ())
        [⟨123, 5, 1⟩]).1.latency_window.items = [(-1 : ℚ)] ∧ (-1 : ℚ) < 0 := by
  constructor
  · norm_num [process_batch, runEvents, processEvent, freshAggState,
      BWindow.push, MAX_WINDOW_SIZE]
  · norm_num

/-- Every batch the scheduler loop flushes has between 1 and `BATCH_SIZE`
events, provided the buffer starts below `BATCH_SIZE`. -/
theorem sched_batches_bounded_aux {α : Type} :
    ∀ (tr : List (SchedIn α)) (s : SchedState α), s.buffer.length < BATCH_SIZE →
      ∀ p ∈ (schedRun s tr).2, 1 ≤ p.2.length ∧ p.2.length ≤ BATCH_SIZE := by
  intro tr
  induction tr with
  | nil => intro s _ p hp; simp [schedRun] at hp
  | cons inp rest ih =>
    intro s hs p hp
    obtain ⟨res, t⟩ := inp
    cases res with
    | some e =>
      by_cases hcond : BATCH_SIZE ≤ (s.buffer ++ [e]).length ∨ MAX_DELAY ≤ t - s.start
      · simp only [schedRun, schedStep, if_pos hcond] at hp
        rcases List.mem_cons.mp hp with h | h
        · subst h
          simp only [List.length_append, List.length_singleton]
          omega
        · exact ih ⟨[], t⟩ (by norm_num [BATCH_SIZE]) p h
      · simp only [schedRun, schedStep, if_neg hcond] at hp
        push_neg at hcond
        refine ih ⟨s.buffer ++ [e], s.start⟩ ?_ p hp
        exact hcond.1
    | none =>
      by_cases hemp : s.buffer.isEmpty
      · simp only [schedRun, schedStep, if_pos hemp] at hp
        exact ih s hs p hp
      · simp only [schedRun, schedStep, if_neg hemp] at hp
        rcases List.mem_cons.mp hp with h | h
        · subst h
          have hne : s.buffer ≠ [] := by
            intro hc; rw [hc] at hemp; exact hemp rfl
          have hlen : s.buffer.length ≠ 0 := by
            intro hc; exact hne (List.length_eq_zero.mp hc)
          change 1 ≤ s.buffer.length ∧ s.buffer.length ≤ BATCH_SIZE
          omega
        · exact ih ⟨[], t⟩ (by norm_num [BATCH_SIZE]) p h

/-- C9. Every batch the scheduler loop passes to `process_batch` is
non-empty and holds at most `BATCH_SIZE` events: over any input trace from
the loop's initial state (empty buffer), every flushed batch has length
between 1 and `BATCH_SIZE` inclusive. -/
theorem scheduler_batch_size_bounds :
    ∀ (α : Type) (t0 : ℚ) (tr : List (SchedIn α)) (p : ℚ × List α),
      p ∈ (schedRun (⟨[], t0⟩ : SchedState α) tr).2 →
        1 ≤ p.2.length ∧ p.2.length ≤ BATCH_SIZE :=
  fun _ t0 tr p hp =>
    sched_batches_bounded_aux tr ⟨[], t0⟩ (by norm_num [BATCH_SIZE]) p hp

/-- Closed instance of `scheduler_batch_size_bounds`: the trace delivering
one event at time 1 flushes the singleton batch [7], whose size is within
bounds. -/
theorem scheduler_batch_size_bounds_witness :
    1 ≤ ([7] : List ℕ).length ∧ ([7] : List ℕ).length ≤ BATCH_SIZE := by
  have hrun : schedRun (⟨[], 0⟩ : SchedState ℕ) [⟨some 7, 1⟩]
      = (⟨[], 1⟩, [((1 : ℚ), [7])]) := by
    norm_num [schedRun, schedStep, BATCH_SIZE, MAX_DELAY]
  exact scheduler_batch_size_bounds ℕ 0 [⟨some 7, 1⟩] (1, [7])
    (by rw [hrun]; simp)

/-- The scheduler's internal reference time always equals the time of the
most recent flush (the loop entry time when nothing has flushed yet). -/
theorem schedRun_start_eq {α : Type} :
    ∀ (tr : List (SchedIn α)) (s : SchedState α),
      (schedRun s tr).1.start = ((schedRun s tr).2.map Prod.fst).getLastD s.start := by
  intro tr
  induction tr with
  | nil => intro s; simp [schedRun]
  | cons inp rest ih =>
    intro s
    obtain ⟨res, t⟩ := inp
    cases res with
    | some e =>
      by_cases hcond : BATCH_SIZE ≤ (s.buffer ++ [e]).length ∨ MAX_DELAY ≤ t - s.start
      · simp only [schedRun, schedStep, if_pos hcond, List.map_cons, List.getLastD_cons]
        exact ih ⟨[], t⟩
      · simp only [schedRun, schedStep, if_neg hcond]
        exact ih ⟨s.buffer ++ [e], s.start⟩
    | none =>
      by_cases hemp : s.buffer.isEmpty
      · simp only [schedRun, schedStep, if_pos hemp]
        exact ih s
      · simp only [schedRun, schedStep, if_neg hemp, List.map_cons, List.getLastD_cons]
        exact ih ⟨[], t⟩

/-- C1 amended. The scheduler loop flushes exactly when: an event arrives
and the grown buffer reaches `BATCH_SIZE`, or an event arrives and the time
elapsed since the most recent flush (the loop entry time before any flush —
not the buffer's first item) is at least `MAX_DELAY`, or a take times out
with a non-empty buffer; a timeout with an empty buffer changes nothing.
The first conjunct identifies the code's reference time `start` with the
last flush time derived from the output history. -/
theorem scheduler_flush_characterization :
    (∀ (α : Type) (t0 : ℚ) (tr : List (SchedIn α)),
      (schedRun (⟨[], t0⟩ : SchedState α) tr).1.start
        = (((schedRun (⟨[], t0⟩ : SchedState α) tr).2.map Prod.fst).getLastD t0)) ∧
    (∀ (α : Type) (s : SchedState α) (e : α) (t : ℚ),
      (schedStep s ⟨some e, t⟩).2 = some (s.buffer ++ [e]) ↔
        BATCH_SIZE ≤ (s.buffer ++ [e]).length ∨ MAX_DELAY ≤ t - s.start) ∧
    (∀ (α : Type) (s : SchedState α) (t : ℚ),
      (schedStep s ⟨none, t⟩).2 = some s.buffer ↔ s.buffer ≠ []) ∧
    (∀ (α : Type) (s : SchedState α) (t : ℚ),
      s.buffer = [] → schedStep s ⟨none, t⟩ = (s, none)) := by
  refine ⟨?_, ?_, ?_, ?_⟩
  · intro α t0 tr
    exact schedRun_start_eq tr ⟨[], t0⟩
  · intro α s e t
    by_cases hcond : BATCH_SIZE ≤ (s.buffer ++ [e]).length ∨ MAX_DELAY ≤ t - s.start
    · simp only [schedStep, if_pos hcond]
      exact iff_of_true trivial hcond
    · simp only [schedStep, if_neg hcond]
      exact iff_of_false (by simp) hcond
  · intro α s t
    by_cases hemp : s.buffer.isEmpty
    · simp only [schedStep, if_pos hemp]
      have : s.buffer = [] := List.isEmpty_iff.mp hemp
      exact iff_of_false (by simp) (by simp [this])
    · simp only [schedStep, if_neg hemp]
      have : s.buffer ≠ [] := by
        intro hc; rw [hc] at hemp; exact hemp rfl
      exact iff_of_true trivial this
  · intro α s t h
    have : s.buffer.isEmpty := by rw [h]; rfl
    simp only [schedStep, if_pos this]

/-- Closed instances of the conditional parts of
`scheduler_flush_characterization`. -/
theorem scheduler_flush_characterization_witness :
    (schedRun (⟨[], 0⟩ : SchedState ℕ) [⟨some 7, 1⟩]).1.start
      = (((schedRun (⟨[], 0⟩ : SchedState ℕ) [⟨some 7, 1⟩]).2.map Prod.fst).getLastD 0) ∧
    ((schedStep (⟨[2], 0⟩ : SchedState ℕ) ⟨some 7, 1⟩).2 = some ([2] ++ [7]) ↔
      BATCH_SIZE ≤ ([2] ++ [7] : List ℕ).length ∨ MAX_DELAY ≤ (1 : ℚ) - 0) ∧
    ((schedStep (⟨[2], 0⟩ : SchedState ℕ) ⟨none, 1⟩).2 = some [2] ↔ ([2] : List ℕ) ≠ []) ∧
    schedStep (⟨[], 0⟩ : SchedState ℕ) ⟨none, 1⟩ = (⟨[], 0⟩, none) := by
  refine ⟨scheduler_flush_characterization.1 ℕ 0 [⟨some 7, 1⟩],
    scheduler_flush_characterization.2.1 ℕ ⟨[2], 0⟩ 7 1,
    scheduler_flush_characterization.2.2.1 ℕ ⟨[2], 0⟩ 1,
    scheduler_flush_characterization.2.2.2 ℕ ⟨[], 0⟩ 1 rfl⟩

/-- C1 counterexample. The claim's flush conditions are not exhaustive: on
the realizable trace delivering event 11 at time 2/5 and event 22 at time
3/5 (loop entered at time 0), the code flushes the batch [11, 22] at time
3/5, yet the buffer held 2 < `BATCH_SIZE` events, only 1/5 < `MAX_DELAY`
had elapsed since the buffer's first item arrived (at 2/5), and no take
timed out. The code's time trigger measures from the last flush (here the
loop entry at 0), not from the buffer's first item. -/
theorem scheduler_flush_counterexample :
    schedWF (0 : ℚ) ([⟨some 11, 2/5⟩, ⟨some 22, 3/5⟩] : List (SchedIn ℕ)) ∧
    (schedRun (⟨[], 0⟩ : SchedState ℕ) [⟨some 11, 2/5⟩, ⟨some 22, 3/5⟩]).2
      = [((3/5 : ℚ), [11, 22])] ∧
    ¬ BATCH_SIZE ≤ ([11, 22] : List ℕ).length ∧
    ¬ MAX_DELAY ≤ (3/5 : ℚ) - 2/5 ∧
    (([⟨some 11, 2/5⟩, ⟨some 22, 3/5⟩] : List (SchedIn ℕ)).all
      (fun inp => inp.res.isSome)) = true := by
  refine ⟨?_, ?_, ?_, ?_, ?_⟩
  · norm_num [schedWF, MAX_DELAY]
  · norm_num [schedRun, schedStep, BATCH_SIZE, MAX_DELAY]
  · norm_num [BATCH_SIZE]
  · norm_num [MAX_DELAY]
  · rfl

/-- Membership in `firstSeen` is membership in the input. -/
theorem firstSeen_mem {α : Type} [DecidableEq α] :
    ∀ (l : List α) (a : α), a ∈ firstSeen l ↔ a ∈ l := by
  intro l
  induction l using firstSeen.induct with
  | case1 => intro a; simp [firstSeen]
  | case2 b l ih =>
    intro a
    rw [firstSeen]
    by_cases hab : a = b
    · subst hab; simp
    · simp only [List.mem_cons, ih a, List.mem_filter]
      constructor
      · rintro (h | ⟨h, _⟩)
        · exact absurd h hab
        · exact Or.inr h
      · rintro (h | h)
        · exact absurd h hab
        · exact Or.inr ⟨h, by simpa using hab⟩

/-- The list `firstSeen l` is duplicate-free. -/
theorem firstSeen_nodup {α : Type} [DecidableEq α] :
    ∀ (l : List α), (firstSeen l).Nodup := by
  intro l
  induction l using firstSeen.induct with
  | case1 => simp [firstSeen]
  | case2 b l ih =>
    rw [firstSeen]
    refine List.nodup_cons.mpr ⟨?_, ih⟩
    intro hmem
    have := (firstSeen_mem _ b).mp hmem
    simp at this

/-- Filtering preserves the relative order of first occurrences: if `x`
occurs (first) before `y` in the filtered list, it does so in the original
list as well. -/
theorem firstIdx_filter_lt {α : Type} [DecidableEq α] :
    ∀ (l : List α) (p : α → Bool) (x y : α), x ∈ l.filter p → y ∈ l.filter p →
      firstIdx (l.filter p) x < firstIdx (l.filter p) y →
      firstIdx l x < firstIdx l y := by
  intro l
  induction l with
  | nil => intro p x y hx _ _; simp at hx
  | cons c l ih =>
    intro p x y hx hy hlt
    by_cases hp : p c
    · rw [List.filter_cons_of_pos hp] at hx hy hlt
      by_cases hxc : x = c
      · subst hxc
        by_cases hyc : y = x
        · subst hyc; simp [firstIdx] at hlt
        · simp [firstIdx, hyc]
      · by_cases hyc : y = c
        · subst hyc
          simp [firstIdx, hxc] at hlt
        · simp only [firstIdx, if_neg hxc, if_neg hyc] at hlt ⊢
          have hx1 : x ∈ l.filter p := by
            rcases List.mem_cons.mp hx with h | h
            · exact absurd h hxc
            · exact h
          have hy1 : y ∈ l.filter p := by
            rcases List.mem_cons.mp hy with h | h
            · exact absurd h hyc
            · exact h
          exact Nat.succ_lt_succ (ih p x y hx1 hy1 (Nat.lt_of_succ_lt_succ hlt))
    · rw [List.filter_cons_of_neg hp] at hx hy hlt
      have hxc : x ≠ c := by
        intro hc; subst hc
        exact hp (List.of_mem_filter hx)
      have hyc : y ≠ c := by
        intro hc; subst hc
        exact hp (List.of_mem_filter hy)
      simp only [firstIdx, if_neg hxc, if_neg hyc]
      exact Nat.succ_lt_succ (ih p x y hx hy hlt)

/-- The elements of `firstSeen l` are listed in strictly increasing order of
first occurrence in `l`. -/
theorem firstSeen_pairwise_firstIdx {α : Type} [DecidableEq α] :
    ∀ (l : List α), (firstSeen l).Pairwise (fun a b => firstIdx l a < firstIdx l b) := by
  intro l
  induction l using firstSeen.induct with
  | case1 => simp [firstSeen]
  | case2 b l ih =>
    rw [firstSeen]
    refine List.pairwise_cons.mpr ⟨?_, ?_⟩
    · intro y hy
      have hyf := (firstSeen_mem _ y).mp hy
      have hyb : y ≠ b := by
        have := List.of_mem_filter hyf
        simpa using this
      simp [firstIdx, hyb]
    · refine ih.imp_of_mem ?_
      intro x y hx hy hlt
      have hxf := (firstSeen_mem _ x).mp hx
      have hyf := (firstSeen_mem _ y).mp hy
      have hxb : x ≠ b := by
        have := List.of_mem_filter hxf
        simpa using this
      have hyb : y ≠ b := by
        have := List.of_mem_filter hyf
        simpa using this
      simp only [firstIdx, if_neg hxb, if_neg hyb]
      exact Nat.succ_lt_succ
        (firstIdx_filter_lt l (fun z => decide (z ≠ b)) x y hxf hyf hlt)

/-- Insertion keeps the inserted element and the rest. -/
theorem insertByCount_perm {α : Type} (cnt : α → ℕ) (b : α) :
    ∀ (l : List α), List.Perm (insertByCount cnt b l) (b :: l) := by
  intro l
  induction l with
  | nil => simp [insertByCount]
  | cons a l ih =>
    simp only [insertByCount]
    by_cases h : cnt a < cnt b
    · rw [if_pos h]
    · rw [if_neg h]
      exact (ih.cons a).trans (List.Perm.swap b a l)

/-- Inserting an element whose first occurrence is later than everything
already placed preserves the ranking order (count strictly descending,
ties by earlier first occurrence). -/
theorem insertByCount_pairwise {α : Type} (cnt key : α → ℕ) (b : α) :
    ∀ (l : List α),
      l.Pairwise (fun x y => cnt y < cnt x ∨ (cnt x = cnt y ∧ key x < key y)) →
      (∀ a ∈ l, key a < key b) →
      (insertByCount cnt b l).Pairwise
        (fun x y => cnt y < cnt x ∨ (cnt x = cnt y ∧ key x < key y)) := by
  intro l
  induction l with
  | nil => intro _ _; simp [insertByCount]
  | cons a l ih =>
    intro hpw hkey
    obtain ⟨hhead, htail⟩ := List.pairwise_cons.mp hpw
    simp only [insertByCount]
    by_cases h : cnt a < cnt b
    · rw [if_pos h]
      refine List.pairwise_cons.mpr ⟨?_, hpw⟩
      intro y hy
      rcases List.mem_cons.mp hy with rfl | hyl
      · exact Or.inl h
      · have := hhead y hyl
        rcases this with h2 | ⟨h2, _⟩
        · exact Or.inl (h2.trans h)
        · exact Or.inl (h2 ▸ h)
    · rw [if_neg h]
      refine List.pairwise_cons.mpr ⟨?_, ?_⟩
      · intro y hy
        have hy2 : y ∈ b :: l := (insertByCount_perm cnt b l).mem_iff.mp hy
        rcases List.mem_cons.mp hy2 with rfl | hyl
        · rcases Nat.lt_or_ge (cnt y) (cnt a) with h2 | h2
          · exact Or.inl h2
          · have heq : cnt a = cnt y := Nat.le_antisymm h2 (Nat.le_of_not_lt h)
            exact Or.inr ⟨heq, hkey a (List.mem_cons_self a l)⟩
        · exact hhead y hyl
      · exact ih htail (fun x hx => hkey x (List.mem_cons_of_mem a hx))

/-- The accumulating insertion fold is a permutation of its inputs. -/
theorem foldl_insertByCount_perm {α : Type} (cnt : α → ℕ) :
    ∀ (todo acc : List α),
      List.Perm (todo.foldl (fun ac x => insertByCount cnt x ac) acc) (acc ++ todo) := by
  intro todo
  induction todo with
  | nil => intro acc; simp
  | cons b rest ih =>
    intro acc
    simp only [List.foldl_cons]
    refine (ih (insertByCount cnt b acc)).trans ?_
    refine (List.Perm.append_right rest (insertByCount_perm cnt b acc)).trans ?_
    exact List.perm_middle.symm

/-- The accumulating insertion fold yields a list ranked by count strictly
descending with ties by increasing key, provided inputs arrive in
increasing key order after everything already placed. -/
theorem foldl_insertByCount_pairwise {α : Type} (cnt key : α → ℕ) :
    ∀ (todo acc : List α),
      acc.Pairwise (fun x y => cnt y < cnt x ∨ (cnt x = cnt y ∧ key x < key y)) →
      (∀ x ∈ acc, ∀ y ∈ todo, key x < key y) →
      todo.Pairwise (fun x y => key x < key y) →
      (todo.foldl (fun ac x => insertByCount cnt x ac) acc).Pairwise
        (fun x y => cnt y < cnt x ∨ (cnt x = cnt y ∧ key x < key y)) := by
  intro todo
  induction todo with
  | nil => intro acc hacc _ _; simpa using hacc
  | cons b rest ih =>
    intro acc hacc hcross htodo
    obtain ⟨hbhead, hbtail⟩ := List.pairwise_cons.mp htodo
    simp only [List.foldl_cons]
    refine ih (insertByCount cnt b acc) ?_ ?_ hbtail
    · exact insertByCount_pairwise cnt key b acc hacc
        (fun a ha => hcross a ha b (List.mem_cons_self b rest))
    · intro x hx y hy
      have hx2 : x ∈ b :: acc := (insertByCount_perm cnt b acc).mem_iff.mp hx
      rcases List.mem_cons.mp hx2 with rfl | hxa
      · exact hbhead y hy
      · exact hcross x hxa y (List.mem_cons_of_mem b hy)

/-- Python's `round` is the identity on integers. -/
theorem pyRound_intCast (n : ℤ) : pyRound ((n : ℚ)) = n := by
  have h0 : ⌊(n : ℚ)⌋ = n := Int.floor_intCast n
  simp only [pyRound, h0]
  norm_num

/-- C6. The batch summary's top-3 value buckets are computed from the value
window's contents after the batch (not the full history), and for any window
content they are: pairs of a bucket with its true count in the rounded
window, listed in the ranking order (count strictly descending, ties by
earlier first occurrence in the window), exactly min(3, number of distinct
buckets) of them, and every bucket of the window left out of the listing
ranks strictly below every listed one — so the listed ones are the 3 most
frequent, ties broken by first-seen-in-window order. -/
theorem batch_summary_top3 :
    (∀ (H : Type) (w d : ℕ) (hm : HLLModel H) (hf : Fin (d + 1) → ℕ → Fin w)
       (clock : ℕ → ℚ) (st : AggState H w d) (events : List Event),
      (process_batch hm hf clock st events).2.top_buckets
        = topBuckets (runEvents hm hf clock 0 st events).value_window.items) ∧
    (∀ (win : List ℚ),
      (∀ p ∈ topBuckets win,
        p.2 = (win.map pyRound).count p.1 ∧ p.1 ∈ win.map pyRound) ∧
      ((topBuckets win).map Prod.fst).Pairwise (bucketBefore (win.map pyRound)) ∧
      (topBuckets win).length = min 3 (firstSeen (win.map pyRound)).length ∧
      (∀ b ∈ win.map pyRound, b ∉ (topBuckets win).map Prod.fst →
        ∀ p ∈ topBuckets win, bucketBefore (win.map pyRound) p.1 b)) := by
  constructor
  · intro H w d hm hf clock st events
    rfl
  intro win
  have hperm : List.Perm
      (sortByCountDesc (fun b => (win.map pyRound).count b) (firstSeen (win.map pyRound)))
      (firstSeen (win.map pyRound)) := by
    simpa [sortByCountDesc] using
      foldl_insertByCount_perm (fun b => (win.map pyRound).count b)
        (firstSeen (win.map pyRound)) []
  have hpw : (sortByCountDesc (fun b => (win.map pyRound).count b)
      (firstSeen (win.map pyRound))).Pairwise (bucketBefore (win.map pyRound)) := by
    have := foldl_insertByCount_pairwise (fun b => (win.map pyRound).count b)
      (fun b => firstIdx (win.map pyRound) b)
      (firstSeen (win.map pyRound)) [] List.Pairwise.nil (by simp)
      (firstSeen_pairwise_firstIdx (win.map pyRound))
    simpa [sortByCountDesc, bucketBefore] using this
  have hfst : (topBuckets win).map Prod.fst
      = (sortByCountDesc (fun b => (win.map pyRound).count b)
          (firstSeen (win.map pyRound))).take 3 := by
    simp only [topBuckets, mostCommon3, List.map_map]
    rw [show (Prod.fst ∘ fun b => (b, List.count b (List.map pyRound win))) = id from rfl,
      List.map_id]
  refine ⟨?_, ?_, ?_, ?_⟩
  · intro p hp
    simp only [topBuckets, mostCommon3, List.mem_map] at hp
    obtain ⟨b, hb, rfl⟩ := hp
    refine ⟨rfl, ?_⟩
    have hb1 : b ∈ sortByCountDesc (fun b => (win.map pyRound).count b)
        (firstSeen (win.map pyRound)) := List.mem_of_mem_take hb
    have hb2 := hperm.mem_iff.mp hb1
    exact (firstSeen_mem _ b).mp hb2
  · rw [hfst]
    exact hpw.sublist (List.take_sublist 3 _)
  · have hlen := hperm.length_eq
    simp [topBuckets, mostCommon3, List.length_take, hlen]
  · intro b hb hnot p hp
    have hbfs : b ∈ firstSeen (win.map pyRound) := (firstSeen_mem _ b).mpr hb
    have hbs : b ∈ sortByCountDesc (fun b => (win.map pyRound).count b)
        (firstSeen (win.map pyRound)) := hperm.mem_iff.mpr hbfs
    rw [hfst] at hnot
    have hbdrop : b ∈ (sortByCountDesc (fun b => (win.map pyRound).count b)
        (firstSeen (win.map pyRound))).drop 3 := by
      rcases (List.mem_append.mp
        (by rw [List.take_append_drop]; exact hbs :
          b ∈ (sortByCountDesc (fun b => (win.map pyRound).count b)
            (firstSeen (win.map pyRound))).take 3 ++
            (sortByCountDesc (fun b => (win.map pyRound).count b)
              (firstSeen (win.map pyRound))).drop 3)) with h | h
      · exact absurd h hnot
      · exact h
    have hptake : p.1 ∈ (sortByCountDesc (fun b => (win.map pyRound).count b)
        (firstSeen (win.map pyRound))).take 3 := by
      rw [← hfst]
      exact List.mem_map_of_mem Prod.fst hp
    have hpw2 : ((sortByCountDesc (fun b => (win.map pyRound).count b)
        (firstSeen (win.map pyRound))).take 3 ++
        (sortByCountDesc (fun b => (win.map pyRound).count b)
          (firstSeen (win.map pyRound))).drop 3).Pairwise
        (bucketBefore (win.map pyRound)) := by
      rw [List.take_append_drop]
      exact hpw
    exact (List.pairwise_append.mp hpw2).2.2 p.1 hptake b hbdrop

/-- Closed instances of `batch_summary_top3` on the window
[1, 2, 2, 3, 3, 4]: its top-3 listing is [(2,2), (3,2), (1,1)], the excluded
bucket 4 ranks below the listed bucket 1 (equal counts, 1 first seen
earlier), and the listed count of bucket 2 is its true window count. -/
theorem batch_summary_top3_witness :
    bucketBefore (wTop3.map pyRound) 1 4 ∧
    ((2 : ℤ), (2 : ℕ)).2 = (wTop3.map pyRound).count ((2 : ℤ), (2 : ℕ)).1 := by
  have hmap : wTop3.map pyRound = [1, 2, 2, 3, 3, 4] := by
    simp only [wTop3, List.map_cons, List.map_nil, pyRound_intCast]
  have h1 : firstSeen ([1, 2, 2, 3, 3, 4] : List ℤ) = [1, 2, 3, 4] := by
    norm_num [firstSeen, List.filter_cons, List.filter_nil, decide_eq_true_eq]
  have htb : topBuckets wTop3 = [((2 : ℤ), (2 : ℕ)), (3, 2), (1, 1)] := by
    rw [topBuckets, hmap]
    simp only [mostCommon3]
    rw [h1]
    decide
  have h := batch_summary_top3.2 wTop3
  constructor
  · exact h.2.2.2 4 (by rw [hmap]; decide) (by rw [htb]; decide)
      ((1 : ℤ), (1 : ℕ)) (by rw [htb]; decide)
  · exact (h.1 ((2 : ℤ), (2 : ℕ)) (by rw [htb]; decide)).1

end Pipeline
